import Mathlib

set_option maxRecDepth 10000

set_option maxHeartbeats 1000000

/-!
Verification of the metrics and scoring engine of a risk-adjusted stock
ranking program.

The development shallowly embeds the two core modules:

* `src/compute_metrics.py` — rolling financial metrics per ticker
  (`_compute_ticker_metrics`, `compute_all_metrics`);
* `src/score_stocks.py` — per-profile raw scores, percentile
  normalization and competition ranks (`_score_profile`);

together with the configuration constants of `src/config.py`.

Modelling conventions:

* Prices and metric values are rationals (`ℚ`).  Pandas missing values
  (`NaN`) are modelled by `Option ℚ` with `none` playing the NaN role:
  `pct_change` puts `none` in front, a rolling aggregate whose window is
  not completely filled with non-missing values yields `none`
  (pandas' default `min_periods = window`), and arithmetic mapped over
  an `Option` propagates `none`.
* `volatility` and `downside_deviation` multiply a standard deviation by
  `sqrt(252)`; square roots leave `ℚ`, so those two fields live in
  `Option ℝ` as `Real.sqrt` of the (rational) rolling sample variance
  times `Real.sqrt 252`.  Everything else stays rational and executable.
* pandas `Series.rank(pct=True)` (average method, ascending) and
  `Series.rank(ascending=False, method="min")` are embedded by their
  standard counting characterizations: the average percentile of a value
  `x` is `(#{y < x} + (#{y = x} + 1)/2) / n`, and the descending
  min-method (competition) rank is `#{y > x} + 1`.
-/

/-! ## Configuration constants (`src/config.py`) -/

def MIN_TRADING_DAYS : ℕ := 200

def TRADING_DAYS_PER_YEAR : ℕ := 252

def WINDOW_12M : ℕ := 252

def WINDOW_6M : ℕ := 126

def WINDOW_3M : ℕ := 63

def MOMENTUM_3M_WEIGHT : ℚ := 6 / 10

def MOMENTUM_12M_WEIGHT : ℚ := 4 / 10

/-- Penalty/bonus weights of one risk profile (`RISK_PROFILES` values). -/
structure ProfileWeights where
  alpha : ℚ
  beta : ℚ
  gamma : ℚ
  delta : ℚ
  deriving DecidableEq

/-- The configured risk profile table (`RISK_PROFILES` in `src/config.py`). -/
def RISK_PROFILES : List (String × ProfileWeights) :=
  [("low", ⟨2, 2, 3 / 2, 3 / 10⟩),
   ("medium", ⟨1, 1, 3 / 4, 7 / 10⟩),
   ("high", ⟨1 / 2, 1 / 2, 3 / 10, 3 / 2⟩)]

/-! ## Price data model -/

/-- One row of the `prices` table as read by `compute_all_metrics`
(`SELECT ticker, date, adj_close`); the ticker is kept outside, in the
grouping.  Dates are modelled as naturals (ordinal day numbers). -/
structure PricePoint where
  date : ℕ
  adj_close : ℚ
  deriving DecidableEq

/-- `prices.sort_values("date")`: insertion into a date-sorted list. -/
def insertByDate (p : PricePoint) : List PricePoint → List PricePoint
  | [] => [p]
  | q :: rest => if p.date ≤ q.date then p :: q :: rest else q :: insertByDate p rest

/-- `prices.sort_values("date")`: insertion sort on the date column. -/
def sortByDate : List PricePoint → List PricePoint
  | [] => []
  | p :: rest => insertByDate p (sortByDate rest)

/-! ## pandas series helpers -/

/-- The trailing `w` entries of a list (`xs.iloc[-w:]` for `w ≥ 1`). -/
def lastWindow {α : Type} (xs : List α) (w : ℕ) : List α :=
  xs.drop (xs.length - w)

/-- Tail of `Series.pct_change`: returns relative to the running previous
element, `(c - prev) / prev`. -/
def pctChangeFrom (prev : ℚ) : List ℚ → List (Option ℚ)
  | [] => []
  | c :: rest => some ((c - prev) / prev) :: pctChangeFrom c rest

/-- `Series.pct_change()`: the first element has no predecessor and is
missing (`none` = NaN); each later element is `(c - prev) / prev`. -/
def pctChange : List ℚ → List (Option ℚ)
  | [] => []
  | c :: rest => none :: pctChangeFrom c rest

/-- The daily-return series exactly as the spec words it: for each day
after the first, `return[T] = (price[T] - price[T-1]) / price[T-1]`;
the first day has no return, so the list is one shorter than the
prices. -/
def specReturns (close : List ℚ) : List ℚ :=
  List.zipWith (fun prev cur => (cur - prev) / prev) close close.tail

/-- Whether the trailing window of length `w` exists and holds only
non-missing values (pandas rolling with `min_periods = window`). -/
def windowFilled (xs : List (Option ℚ)) (w : ℕ) : Bool :=
  decide (w ≤ xs.length) && (lastWindow xs w).all Option.isSome

/-- The non-missing values of the trailing window. -/
def windowVals (xs : List (Option ℚ)) (w : ℕ) : List ℚ :=
  (lastWindow xs w).filterMap id

/-- `xs.rolling(w).mean().iloc[-1]`: the mean of the trailing window, or
NaN when the window is not filled. -/
def rollingMeanLast (xs : List (Option ℚ)) (w : ℕ) : Option ℚ :=
  if windowFilled xs w then some ((windowVals xs w).sum / (w : ℚ)) else none

/-- Sample variance with `ddof = 1` (the square of pandas `std`). -/
def sampleVar (l : List ℚ) : ℚ :=
  ((l.map (fun x => (x - l.sum / (l.length : ℚ)) ^ 2)).sum) / ((l.length : ℚ) - 1)

/-- `xs.rolling(w).std().iloc[-1]` squared: the sample variance of the
trailing window, or NaN when the window is not filled. -/
def rollingVarLast (xs : List (Option ℚ)) (w : ℕ) : Option ℚ :=
  if windowFilled xs w then some (sampleVar (windowVals xs w)) else none

/-- `list.cummax()` continued below a running maximum `m`. -/
def cummaxFrom (m : ℚ) : List ℚ → List ℚ
  | [] => []
  | c :: rest => max m c :: cummaxFrom (max m c) rest

/-- `Series.cummax()`: running maximum. -/
def cummax : List ℚ → List ℚ
  | [] => []
  | c :: rest => c :: cummaxFrom c rest

/-- `Series.min()`: `none` on the empty series (pandas NaN), otherwise
the least element. -/
def seriesMin : List ℚ → Option ℚ
  | [] => none
  | x :: rest => some (rest.foldl min x)

/-! ## Metrics computation (`src/compute_metrics.py`) -/

/-- `daily_returns = close.pct_change()` (line 46). -/
def dailyReturns (close : List ℚ) : List (Option ℚ) :=
  pctChange close

/-- `rolling_mean.iloc[-1]` (lines 49–50). -/
def meanDailyOf (close : List ℚ) (window : ℕ) : Option ℚ :=
  rollingMeanLast (dailyReturns close) window

/-- The annualization map `(1 + m) ** TRADING_DAYS_PER_YEAR - 1` (line 53). -/
def annualize (m : ℚ) : ℚ :=
  (1 + m) ^ TRADING_DAYS_PER_YEAR - 1

/-- `annualized_return` (line 53); NaN propagates from the rolling mean. -/
def annualizedOf (close : List ℚ) (window : ℕ) : Option ℚ :=
  (meanDailyOf close window).map annualize

/-- `volatility = rolling_std.iloc[-1] * np.sqrt(TRADING_DAYS_PER_YEAR)`
(lines 56–57), with `std = sqrt` of the rolling sample variance. -/
noncomputable def volatilityOf (close : List ℚ) (window : ℕ) : Option ℝ :=
  (rollingVarLast (dailyReturns close) window).map
    (fun v : ℚ => Real.sqrt ((v : ℝ)) * Real.sqrt ((TRADING_DAYS_PER_YEAR : ℕ) : ℝ))

/-- `negative_returns[negative_returns > 0] = 0.0` (lines 60–61): positive
returns are clipped to zero, non-positive ones kept, NaN stays NaN. -/
def clipPos (r : ℚ) : ℚ :=
  if 0 < r then 0 else r

/-- The clipped return series used for downside deviation. -/
def negativeReturns (close : List ℚ) : List (Option ℚ) :=
  (dailyReturns close).map (Option.map clipPos)

/-- `downside_deviation` (lines 62–63). -/
noncomputable def downsideDeviationOf (close : List ℚ) (window : ℕ) : Option ℝ :=
  (rollingVarLast (negativeReturns close) window).map
    (fun v : ℚ => Real.sqrt ((v : ℝ)) * Real.sqrt ((TRADING_DAYS_PER_YEAR : ℕ) : ℝ))

/-- `drawdown = (trailing_close - cummax) / cummax` (lines 68–69). -/
def drawdownList (close : List ℚ) : List ℚ :=
  List.zipWith (fun c m => (c - m) / m) close (cummax close)

/-- `max_drawdown = drawdown.min()` over the trailing `window` prices
(lines 67–70). -/
def maxDrawdownOf (close : List ℚ) (window : ℕ) : Option ℚ :=
  seriesMin (drawdownList (lastWindow close window))

/-- `_period_return(n_days)` (lines 73–76): 0 when fewer than `n + 1`
observations exist, else `close.iloc[-1] / close.iloc[-n-1] - 1`. -/
def period_return (close : List ℚ) (n : ℕ) : ℚ :=
  if close.length < n + 1 then 0
  else close.getD (close.length - 1) 0 / close.getD (close.length - (n + 1)) 0 - 1

/-- `momentum` (lines 78–80): the weighted blend of the 3-month and
12-month period returns over the full (unwindowed) close series. -/
def momentumOf (close : List ℚ) : ℚ :=
  MOMENTUM_3M_WEIGHT * period_return close WINDOW_3M
    + MOMENTUM_12M_WEIGHT * period_return close WINDOW_12M

/-- The snapshot record returned by `_compute_ticker_metrics`
(lines 82–90); `none` stands for a NaN entry. -/
structure Metrics where
  mean_daily_return : Option ℚ
  annualized_return : Option ℚ
  volatility : Option ℝ
  downside_deviation : Option ℝ
  max_drawdown : Option ℚ
  momentum : ℚ
  trading_days : ℕ

/-- `_compute_ticker_metrics(prices, window)` (lines 23–90): `none` when
the ticker has insufficient history, otherwise the metrics snapshot of
the date-sorted close series. -/
noncomputable def compute_ticker_metrics (prices : List PricePoint) (window : ℕ) :
    Option Metrics :=
  if prices.length < MIN_TRADING_DAYS then none
  else
    some
      { mean_daily_return := meanDailyOf ((sortByDate prices).map PricePoint.adj_close) window
        annualized_return := annualizedOf ((sortByDate prices).map PricePoint.adj_close) window
        volatility := volatilityOf ((sortByDate prices).map PricePoint.adj_close) window
        downside_deviation :=
          downsideDeviationOf ((sortByDate prices).map PricePoint.adj_close) window
        max_drawdown := maxDrawdownOf ((sortByDate prices).map PricePoint.adj_close) window
        momentum := momentumOf ((sortByDate prices).map PricePoint.adj_close)
        trading_days := prices.length }

/-- The window-length lookup `{12: WINDOW_12M, 6: 126, 3: 63}.get(window_months,
WINDOW_12M)` (line 99). -/
def windowFor (window_months : ℤ) : ℕ :=
  if window_months = 12 then WINDOW_12M
  else if window_months = 6 then WINDOW_6M
  else if window_months = 3 then WINDOW_3M
  else WINDOW_12M

/-- One output row of `compute_all_metrics` (lines 119–124). -/
structure MetricsRow where
  ticker : String
  as_of_date : ℕ
  window_months : ℤ
  metrics : Metrics

/-- All price points of the grouped price table. -/
def allPoints (groups : List (String × List PricePoint)) : List PricePoint :=
  groups.foldr (fun g acc => g.2 ++ acc) []

/-- `as_of_date = prices_df["date"].max()` (line 109). -/
def asOfDate (groups : List (String × List PricePoint)) : ℕ :=
  ((allPoints groups).map PricePoint.date).foldr max 0

/-- `compute_all_metrics(window_months)` (lines 93–135), taking the
price table already grouped by ticker (the SQL `GROUP BY`-style
`groupby("ticker")` of line 113): empty output on an empty price table,
otherwise one row per ticker with sufficient history, each stamped with
the whole-dataset maximum date and the caller's `window_months`. -/
noncomputable def compute_all_metrics (groups : List (String × List PricePoint))
    (window_months : ℤ) : List MetricsRow :=
  if allPoints groups = [] then []
  else
    groups.filterMap (fun g =>
      (compute_ticker_metrics g.2 (windowFor window_months)).map (fun m =>
        { ticker := g.1
          as_of_date := asOfDate groups
          window_months := window_months
          metrics := m }))

/-! ## Scoring (`src/score_stocks.py`) -/

/-- One metrics row as read back by `score_all_profiles` (the SELECT of
lines 51–58); values are taken non-missing rationals. -/
structure ScoreInput where
  ticker : String
  as_of_date : ℕ
  annualized_return : ℚ
  volatility : ℚ
  downside_deviation : ℚ
  max_drawdown : ℚ
  momentum : ℚ
  deriving DecidableEq

/-- One output row of `_score_profile` (lines 45–46). -/
structure ScoreRow where
  ticker : String
  as_of_date : ℕ
  risk_profile : String
  raw_score : ℚ
  normalized_score : ℚ
  rank : ℕ
  deriving DecidableEq

/-- `raw_score` (lines 32–38). -/
def rawScore (w : ProfileWeights) (r : ScoreInput) : ℚ :=
  r.annualized_return - w.alpha * r.volatility - w.beta * |r.max_drawdown|
    - w.gamma * r.downside_deviation + w.delta * r.momentum

/-- pandas average rank (ascending) of the value `x` within `scores`:
the tied group occupies the ascending positions `#{y < x} + 1` through
`#{y < x} + #{y = x}`, whose average is `#{y < x} + (#{y = x} + 1) / 2`. -/
def rankAvg (scores : List ℚ) (x : ℚ) : ℚ :=
  (scores.countP (fun y => decide (y < x)) : ℚ)
    + ((scores.countP (fun y => decide (y = x)) : ℚ) + 1) / 2

/-- `raw_score.rank(pct=True)` (line 41): the average rank divided by
the series length. -/
def pctRank (scores : List ℚ) (x : ℚ) : ℚ :=
  rankAvg scores x / (scores.length : ℚ)

/-- `raw_score.rank(ascending=False, method="min")` (line 42): the
descending competition rank, i.e. one more than the number of strictly
better values. -/
def compRank (scores : List ℚ) (x : ℚ) : ℕ :=
  scores.countP (fun y => decide (x < y)) + 1

/-- The scored row built from one metrics row, given the raw scores of
the whole cross-section. -/
def scoreRow (scores : List ℚ) (profile : String) (w : ProfileWeights)
    (r : ScoreInput) : ScoreRow :=
  { ticker := r.ticker
    as_of_date := r.as_of_date
    risk_profile := profile
    raw_score := rawScore w r
    normalized_score := pctRank scores (rawScore w r)
    rank := compRank scores (rawScore w r) }

/-- `_score_profile(metrics, profile)` (lines 15–46). -/
def scoreProfile (metrics : List ScoreInput) (profile : String)
    (w : ProfileWeights) : List ScoreRow :=
  metrics.map (scoreRow (metrics.map (rawScore w)) profile w)

/-- `score_all_profiles()` (lines 49–75) on a non-empty metrics set:
the concatenation of the per-profile scored frames. -/
def score_all_profiles (metrics : List ScoreInput) : List ScoreRow :=
  if metrics = [] then []
  else (RISK_PROFILES.map (fun p => scoreProfile metrics p.1 p.2)).foldr (· ++ ·) []

/-! ## Concrete example data used by witnesses and counterexamples -/

/-- A constant price series of the given length, one point per day. -/
def constSeries (len : ℕ) : List PricePoint :=
  (List.range len).map (fun i => ⟨i, 100⟩)

/-- A metrics row whose only nonzero metric is `annualized_return`, so
that its raw score equals `a` under every profile. -/
def pureReturnInput (t : String) (a : ℚ) : ScoreInput :=
  ⟨t, 1, a, 0, 0, 0, 0⟩

/-! ## Basic lemmas about the list machinery -/

theorem insertByDate_of_le (p : PricePoint) (l : List PricePoint)
    (h : ∀ q ∈ l, p.date ≤ q.date) : insertByDate p l = p :: l := by
  cases l with
  | nil => rfl
  | cons q rest =>
      unfold insertByDate
      rw [if_pos (h q (List.mem_cons_self q rest))]

theorem sortByDate_of_sorted (l : List PricePoint)
    (h : l.Pairwise (fun a b => a.date ≤ b.date)) : sortByDate l = l := by
  induction l with
  | nil => rfl
  | cons p rest ih =>
      rw [List.pairwise_cons] at h
      rw [sortByDate, ih h.2, insertByDate_of_le p rest h.1]

theorem length_pctChangeFrom (l : List ℚ) : ∀ prev, (pctChangeFrom prev l).length = l.length := by
  induction l with
  | nil => intro prev; rfl
  | cons c rest ih =>
      intro prev
      simp [pctChangeFrom, ih c]

theorem length_pctChange (l : List ℚ) : (pctChange l).length = l.length := by
  cases l with
  | nil => rfl
  | cons c rest => simp [pctChange, length_pctChangeFrom]

theorem length_dailyReturns (close : List ℚ) : (dailyReturns close).length = close.length :=
  length_pctChange close

theorem length_specReturns (l : List ℚ) : (specReturns l).length = l.length - 1 := by
  cases l with
  | nil => rfl
  | cons c rest =>
      simp [specReturns]

theorem pctChangeFrom_eq_spec (l : List ℚ) :
    ∀ prev, pctChangeFrom prev l = (specReturns (prev :: l)).map some := by
  induction l with
  | nil => intro prev; rfl
  | cons c rest ih =>
      intro prev
      have h2 : specReturns (prev :: c :: rest) =
          ((c - prev) / prev) :: specReturns (c :: rest) := rfl
      rw [pctChangeFrom, ih c, h2, List.map_cons]

theorem dailyReturns_cons (c : ℚ) (rest : List ℚ) :
    dailyReturns (c :: rest) = none :: (specReturns (c :: rest)).map some := by
  rw [dailyReturns, pctChange, pctChangeFrom_eq_spec]

theorem length_lastWindow {α : Type} (xs : List α) (w : ℕ) :
    (lastWindow xs w).length = min w xs.length := by
  unfold lastWindow
  rw [List.length_drop]
  omega

theorem mem_of_mem_lastWindow {α : Type} {xs : List α} {w : ℕ} {a : α}
    (h : a ∈ lastWindow xs w) : a ∈ xs :=
  (List.drop_sublist _ _).subset h

theorem lastWindow_dailyReturns (close : List ℚ) (w : ℕ)
    (hlen : w + 1 ≤ close.length) :
    lastWindow (dailyReturns close) w = (lastWindow (specReturns close) w).map some := by
  obtain ⟨c, rest, rfl⟩ := List.exists_cons_of_ne_nil
    (show close ≠ [] from List.ne_nil_of_length_pos (by omega))
  rw [dailyReturns_cons]
  unfold lastWindow
  have hR : (specReturns (c :: rest)).length = rest.length := by
    simp [length_specReturns]
  have hlen' : w ≤ rest.length := by
    have := length_specReturns (c :: rest)
    simp at hlen
    omega
  have harith : (none :: (specReturns (c :: rest)).map some).length - w =
      ((specReturns (c :: rest)).length - w) + 1 := by
    simp only [List.length_cons, List.length_map, hR]
    omega
  rw [harith, List.drop_succ_cons]
  rw [List.map_drop]

theorem windowVals_of_map_some (l : List ℚ) :
    (l.map some).filterMap id = l := by
  induction l with
  | nil => rfl
  | cons c rest ih => simp [ih]

theorem meanDailyOf_spec (close : List ℚ) (w : ℕ) (hw : 0 < w)
    (hlen : w + 1 ≤ close.length) :
    meanDailyOf close w = some ((lastWindow (specReturns close) w).sum / (w : ℚ)) := by
  have hfill : windowFilled (dailyReturns close) w = true := by
    unfold windowFilled
    rw [Bool.and_eq_true, decide_eq_true_eq]
    constructor
    · rw [length_dailyReturns]; omega
    · rw [lastWindow_dailyReturns close w hlen]
      simp [List.all_eq_true]
  unfold meanDailyOf rollingMeanLast
  rw [hfill]
  simp only [if_true]
  unfold windowVals
  rw [lastWindow_dailyReturns close w hlen, windowVals_of_map_some]

theorem length_windowVals_spec (close : List ℚ) (w : ℕ)
    (hlen : w + 1 ≤ close.length) :
    (lastWindow (specReturns close) w).length = w := by
  rw [length_lastWindow, length_specReturns]
  omega

theorem mem_specReturns (close : List ℚ) (y : ℚ) (hy : y ∈ specReturns close) :
    ∃ prev cur, prev ∈ close ∧ cur ∈ close ∧ y = (cur - prev) / prev := by
  induction close with
  | nil => simp [specReturns] at hy
  | cons c rest ih =>
      cases rest with
      | nil => simp [specReturns] at hy
      | cons c2 r2 =>
          have h2 : specReturns (c :: c2 :: r2) =
              ((c2 - c) / c) :: specReturns (c2 :: r2) := rfl
          rw [h2, List.mem_cons] at hy
          rcases hy with hy | hy
          · exact ⟨c, c2, List.mem_cons_self _ _,
              List.mem_cons_of_mem _ (List.mem_cons_self _ _), hy⟩
          · obtain ⟨prev, cur, hp, hc, he⟩ := ih hy
            exact ⟨prev, cur, List.mem_cons_of_mem _ hp, List.mem_cons_of_mem _ hc, he⟩

theorem return_gt_neg_one (prev cur : ℚ) (hp : 0 < prev) (hc : 0 < cur) :
    -1 < (cur - prev) / prev := by
  have h1 : (cur - prev) / prev = cur / prev - 1 := by
    field_simp
  have h2 : 0 < cur / prev := div_pos hc hp
  rw [h1]
  linarith

theorem mem_dailyReturns_spec (close : List ℚ) (y : ℚ)
    (h : some y ∈ dailyReturns close) : y ∈ specReturns close := by
  cases close with
  | nil => simp [dailyReturns, pctChange] at h
  | cons c rest =>
      rw [dailyReturns_cons, List.mem_cons] at h
      rcases h with h | h
      · exact absurd h (by simp)
      · simpa using h

theorem sum_ge_neg_length (l : List ℚ) (h : ∀ y ∈ l, -1 < y) :
    -(l.length : ℚ) ≤ l.sum := by
  induction l with
  | nil => simp
  | cons a rest ih =>
      have ha : -1 < a := h a (List.mem_cons_self _ _)
      have hr : -(rest.length : ℚ) ≤ rest.sum :=
        ih (fun y hy => h y (List.mem_cons_of_mem _ hy))
      simp only [List.sum_cons, List.length_cons]
      push_cast
      linarith

theorem mean_gt_neg_one (l : List ℚ) (w : ℕ) (h : ∀ y ∈ l, -1 < y)
    (hl : l.length = w) (hw : 0 < w) : -1 < l.sum / (w : ℚ) := by
  obtain ⟨a, rest, rfl⟩ := List.exists_cons_of_ne_nil
    (show l ≠ [] from List.ne_nil_of_length_pos (by omega))
  have ha : -1 < a := h a (List.mem_cons_self _ _)
  have hr : -(rest.length : ℚ) ≤ rest.sum :=
    sum_ge_neg_length rest (fun y hy => h y (List.mem_cons_of_mem _ hy))
  have hwq : (0 : ℚ) < (w : ℚ) := by exact_mod_cast hw
  rw [lt_div_iff hwq]
  have hlen : (rest.length : ℚ) = (w : ℚ) - 1 := by
    simp only [List.length_cons] at hl
    have : rest.length = w - 1 := by omega
    rw [this]
    push_cast [Nat.cast_sub (by omega : 1 ≤ w)]
    ring
  simp only [List.sum_cons]
  rw [hlen] at hr
  linarith

theorem windowVals_length_of_filled (xs : List (Option ℚ)) (w : ℕ)
    (h : windowFilled xs w = true) : (windowVals xs w).length = w := by
  unfold windowFilled at h
  rw [Bool.and_eq_true, decide_eq_true_eq] at h
  obtain ⟨hle, hall⟩ := h
  unfold windowVals
  rw [List.all_eq_true] at hall
  have : ∀ (l : List (Option ℚ)), (∀ o ∈ l, o.isSome = true) →
      (l.filterMap id).length = l.length := by
    intro l
    induction l with
    | nil => intro _; rfl
    | cons o rest ih =>
        intro hmem
        have ho := hmem o (List.mem_cons_self _ _)
        obtain ⟨v, rfl⟩ := Option.isSome_iff_exists.mp ho
        simp [ih (fun o ho => hmem o (List.mem_cons_of_mem _ ho))]
  rw [this _ hall, length_lastWindow]
  omega

theorem meanDaily_gt_neg_one (close : List ℚ) (w : ℕ) (μ : ℚ) (hw : 0 < w)
    (hp : ∀ p ∈ close, 0 < p) (h : meanDailyOf close w = some μ) : -1 < μ := by
  unfold meanDailyOf rollingMeanLast at h
  by_cases hf : windowFilled (dailyReturns close) w = true
  · rw [hf] at h
    simp only [if_true, Option.some.injEq] at h
    subst h
    have hlen := windowVals_length_of_filled _ _ hf
    apply mean_gt_neg_one _ w _ hlen hw
    intro y hy
    unfold windowVals at hy
    rw [List.mem_filterMap] at hy
    obtain ⟨o, ho, hid⟩ := hy
    have hmem : some y ∈ dailyReturns close := by
      have : o = some y := hid
      rw [this] at ho
      exact mem_of_mem_lastWindow ho
    obtain ⟨prev, cur, hprev, hcur, he⟩ :=
      mem_specReturns close y (mem_dailyReturns_spec close y hmem)
    rw [he]
    exact return_gt_neg_one prev cur (hp prev hprev) (hp cur hcur)
  · rw [Bool.not_eq_true] at hf
    rw [hf] at h
    simp at h

/-! ## Claim C3: mean daily return -/

/-- Claim C3 (amended): for every date-sorted price series with at least
`window + 1 = 253` observations, the snapshot is produced and its
`mean_daily_return` equals the arithmetic mean of the trailing `window`
daily returns, where `return[T] = (price[T] - price[T-1]) / price[T-1]`
and the first day has no return.  (As stated the claim fails for
eligible tickers with 200–252 observations, whose rolling mean is NaN;
see the counterexample.) -/
theorem mean_daily_return_c3 (prices : List PricePoint)
    (hsorted : prices.Pairwise (fun a b => a.date ≤ b.date))
    (hlen : WINDOW_12M + 1 ≤ prices.length) :
    ∃ m, compute_ticker_metrics prices WINDOW_12M = some m ∧
      m.mean_daily_return =
        some ((lastWindow (specReturns (prices.map PricePoint.adj_close)) WINDOW_12M).sum
          / (WINDOW_12M : ℚ)) := by
  have hnotshort : ¬ prices.length < MIN_TRADING_DAYS := by
    unfold MIN_TRADING_DAYS
    unfold WINDOW_12M at hlen
    omega
  unfold compute_ticker_metrics
  rw [if_neg hnotshort]
  refine ⟨_, rfl, ?_⟩
  show meanDailyOf ((sortByDate prices).map PricePoint.adj_close) WINDOW_12M = _
  rw [sortByDate_of_sorted prices hsorted]
  exact meanDailyOf_spec _ _ (by norm_num [WINDOW_12M])
    (by rw [List.length_map]; exact hlen)

/-- Claim C3 counterexample: a ticker holding 200 constant price points
is eligible (a snapshot is produced) yet its `mean_daily_return` is NaN
(`none`), not the arithmetic mean of its trailing-window returns (which
would be `some 0` here): the rolling window of 252 returns cannot be
filled from 199 returns. -/
theorem mean_daily_return_c3_counterexample :
    (compute_ticker_metrics (constSeries 200) WINDOW_12M).map Metrics.mean_daily_return
      = some none
    ∧ (some (none : Option ℚ) : Option (Option ℚ)) ≠
        some (some ((lastWindow (specReturns ((constSeries 200).map PricePoint.adj_close))
          WINDOW_12M).sum / (WINDOW_12M : ℚ))) := by
  constructor
  · decide
  · decide

/-- Witness for C3: the amended theorem applied to a concrete 253-point
series, whose trailing-window mean daily return is 0. -/
theorem mean_daily_return_c3_witness :
    ∃ m, compute_ticker_metrics (constSeries 253) WINDOW_12M = some m ∧
      m.mean_daily_return =
        some ((lastWindow (specReturns ((constSeries 253).map PricePoint.adj_close))
          WINDOW_12M).sum / (WINDOW_12M : ℚ)) :=
  mean_daily_return_c3 (constSeries 253) (by decide) (by decide)

/-! ## Drawdown lemmas -/

theorem foldl_min_le_init (l : List ℚ) : ∀ x : ℚ, l.foldl min x ≤ x := by
  induction l with
  | nil => intro x; exact le_refl x
  | cons a rest ih =>
      intro x
      calc (a :: rest).foldl min x = rest.foldl min (min x a) := rfl
        _ ≤ min x a := ih (min x a)
        _ ≤ x := min_le_left x a

theorem foldl_min_le_mem (l : List ℚ) : ∀ x y : ℚ, y ∈ l → l.foldl min x ≤ y := by
  induction l with
  | nil => intro x y hy; exact absurd hy (List.not_mem_nil y)
  | cons a rest ih =>
      intro x y hy
      rcases List.mem_cons.mp hy with rfl | hy
      · calc (y :: rest).foldl min x = rest.foldl min (min x y) := rfl
          _ ≤ min x y := foldl_min_le_init rest (min x y)
          _ ≤ y := min_le_right x y
      · exact ih (min x a) y hy

theorem foldl_min_eq_init_or_mem (l : List ℚ) :
    ∀ x : ℚ, l.foldl min x = x ∨ l.foldl min x ∈ l := by
  induction l with
  | nil => intro x; exact Or.inl rfl
  | cons a rest ih =>
      intro x
      rcases ih (min x a) with h | h
      · rcases min_choice x a with hx | ha
        · exact Or.inl (by rw [show (a :: rest).foldl min x = rest.foldl min (min x a) from rfl, h, hx])
        · refine Or.inr (List.mem_cons.mpr (Or.inl ?_))
          rw [show (a :: rest).foldl min x = rest.foldl min (min x a) from rfl, h, ha]
      · exact Or.inr (List.mem_cons.mpr (Or.inr h))

theorem dd_nonpos (l : List ℚ) : ∀ m : ℚ, 0 < m → (∀ p ∈ l, 0 < p) →
    ∀ d ∈ List.zipWith (fun x mx => (x - mx) / mx) l (cummaxFrom m l), d ≤ 0 := by
  induction l with
  | nil => intro m _ _ d hd; simp [cummaxFrom] at hd
  | cons c rest ih =>
      intro m hm hp
      have hmax : 0 < max m c := lt_of_lt_of_le hm (le_max_left m c)
      rw [show cummaxFrom m (c :: rest) = max m c :: cummaxFrom (max m c) rest from rfl,
        List.zipWith_cons_cons, List.forall_mem_cons]
      constructor
      · have h1 : c - max m c ≤ 0 := sub_nonpos.mpr (le_max_right m c)
        exact div_nonpos_iff.mpr (Or.inr ⟨h1, le_of_lt hmax⟩)
      · exact ih (max m c) hmax (fun p hp' => hp p (List.mem_cons_of_mem _ hp'))

theorem dd_zero_iff (l : List ℚ) : ∀ m : ℚ, 0 < m → (∀ p ∈ l, 0 < p) →
    ((∀ d ∈ List.zipWith (fun x mx => (x - mx) / mx) l (cummaxFrom m l), d = 0) ↔
      List.Chain (· ≤ ·) m l) := by
  induction l with
  | nil => intro m _ _; simp [cummaxFrom]
  | cons c rest ih =>
      intro m hm hp
      have hc : 0 < c := hp c (List.mem_cons_self _ _)
      have hrest : ∀ p ∈ rest, 0 < p := fun p hp' => hp p (List.mem_cons_of_mem _ hp')
      rw [show cummaxFrom m (c :: rest) = max m c :: cummaxFrom (max m c) rest from rfl,
        List.zipWith_cons_cons, List.forall_mem_cons, List.chain_cons]
      by_cases hmc : m ≤ c
      · have hmaxeq : max m c = c := max_eq_right hmc
        rw [hmaxeq, ih c hc hrest]
        simp [hmc]
      · have hcm : c < m := lt_of_not_le hmc
        have hmaxeq : max m c = m := max_eq_left (le_of_lt hcm)
        have hne0 : (c - max m c) / max m c ≠ 0 := by
          rw [hmaxeq]
          have hneg : c - m < 0 := by linarith
          exact ne_of_lt (div_neg_of_neg_of_pos hneg hm)
        constructor
        · intro h
          exact absurd h.1 hne0
        · intro h
          exact absurd h.1 hmc

/-! ## Claim C6: max drawdown sign -/

/-- Claim C6: for every non-empty positive price series and positive
window, the computed `max_drawdown` — the minimum over the trailing
window of `(price - running_max) / running_max` — is defined and `≤ 0`,
and it equals 0 exactly when the price is non-decreasing throughout the
trailing window. -/
theorem max_drawdown_c6 (close : List ℚ) (w : ℕ) (hw : 0 < w)
    (hne : close ≠ []) (hpos : ∀ p ∈ close, 0 < p) :
    ∃ d, maxDrawdownOf close w = some d ∧ d ≤ 0 ∧
      (d = 0 ↔ (lastWindow close w).Chain' (· ≤ ·)) := by
  have htne : lastWindow close w ≠ [] := by
    apply List.ne_nil_of_length_pos
    rw [length_lastWindow]
    have : 0 < close.length := List.length_pos.mpr hne
    omega
  have htpos : ∀ p ∈ lastWindow close w, 0 < p :=
    fun p hp => hpos p (mem_of_mem_lastWindow hp)
  obtain ⟨c, rest, hct⟩ := List.exists_cons_of_ne_nil htne
  have hc : 0 < c := htpos c (by rw [hct]; exact List.mem_cons_self _ _)
  have hrest : ∀ p ∈ rest, 0 < p :=
    fun p hp => htpos p (by rw [hct]; exact List.mem_cons_of_mem _ hp)
  have hdd : drawdownList (lastWindow close w) =
      0 :: List.zipWith (fun x mx => (x - mx) / mx) rest (cummaxFrom c rest) := by
    rw [hct]
    unfold drawdownList cummax
    rw [List.zipWith_cons_cons]
    rw [sub_self, zero_div]
  have htail_nonpos := dd_nonpos rest c hc hrest
  have hiff := dd_zero_iff rest c hc hrest
  have hch : (lastWindow close w).Chain' (· ≤ ·) ↔ List.Chain (· ≤ ·) c rest := by
    rw [hct]
    exact Iff.rfl
  refine ⟨(List.zipWith (fun x mx => (x - mx) / mx) rest (cummaxFrom c rest)).foldl min 0,
    ?_, ?_, ?_⟩
  · unfold maxDrawdownOf
    rw [hdd]
    rfl
  · exact foldl_min_le_init _ 0
  · rw [hch, ← hiff]
    constructor
    · intro hd0 y hy
      have h1 := foldl_min_le_mem _ 0 y hy
      have h2 := htail_nonpos y hy
      rw [hd0] at h1
      linarith
    · intro hall
      rcases foldl_min_eq_init_or_mem
        (List.zipWith (fun x mx => (x - mx) / mx) rest (cummaxFrom c rest)) 0 with h | h
      · exact h
      · exact hall _ h

/-- Witness for C6: the spec's own scenario, prices
`[100, 101, 99, 103, 98]` with window 4: the max drawdown is defined,
equal to `-5/103` (≈ -0.0486) and `≤ 0`. -/
theorem max_drawdown_c6_witness :
    maxDrawdownOf [100, 101, 99, 103, 98] 4 = some (-5 / 103)
    ∧ ((-5 / 103 : ℚ) ≤ 0) := by
  obtain ⟨d, hd, hle, _⟩ := max_drawdown_c6 [100, 101, 99, 103, 98] 4
    (by norm_num) (List.cons_ne_nil _ _) (by norm_num)
  have hval : maxDrawdownOf [100, 101, 99, 103, 98] 4 = some (-5 / 103) := by
    norm_num [maxDrawdownOf, seriesMin, drawdownList, lastWindow, cummax, cummaxFrom]
  refine ⟨hval, ?_⟩
  rw [hval] at hd
  have : d = -5 / 103 := by
    injection hd.symm
  rw [this] at hle
  exact hle

/-! ## Claim C7: momentum blend -/

/-- Claim C7: momentum is the blend
`0.6 * return_3m + 0.4 * return_12m`; an N-day period return is
`price[last] / price[last - N] - 1` when at least `N + 1` observations
exist and exactly 0 otherwise; hence with fewer than 64 observations
`momentum = 0.4 * return_12m`, and with at least 64 but fewer than 253
observations `momentum = 0.6 * return_3m`. -/
theorem momentum_c7 (close : List ℚ) :
    (momentumOf close =
      MOMENTUM_3M_WEIGHT * period_return close WINDOW_3M
        + MOMENTUM_12M_WEIGHT * period_return close WINDOW_12M)
    ∧ (∀ n : ℕ, close.length < n + 1 → period_return close n = 0)
    ∧ (∀ n : ℕ, n + 1 ≤ close.length → period_return close n =
        close.getD (close.length - 1) 0 / close.getD (close.length - (n + 1)) 0 - 1)
    ∧ (close.length < WINDOW_3M + 1 →
        momentumOf close = MOMENTUM_12M_WEIGHT * period_return close WINDOW_12M)
    ∧ (WINDOW_3M + 1 ≤ close.length → close.length < WINDOW_12M + 1 →
        momentumOf close = MOMENTUM_3M_WEIGHT * period_return close WINDOW_3M) := by
  refine ⟨rfl, ?_, ?_, ?_, ?_⟩
  · intro n h
    unfold period_return
    rw [if_pos h]
  · intro n h
    unfold period_return
    rw [if_neg (not_lt.mpr h)]
  · intro h
    have h3 : period_return close WINDOW_3M = 0 := by
      unfold period_return
      rw [if_pos h]
    unfold momentumOf
    rw [h3]
    ring
  · intro h1 h2
    have h12 : period_return close WINDOW_12M = 0 := by
      unfold period_return
      rw [if_pos h2]
    unfold momentumOf
    rw [h12]
    ring

/-- Witness for C7: a 50-observation series uses only the 12-month term
(which is itself 0 there), and a 100-observation series uses only the
3-month term. -/
theorem momentum_c7_witness :
    momentumOf (List.replicate 50 (100 : ℚ)) =
      MOMENTUM_12M_WEIGHT * period_return (List.replicate 50 (100 : ℚ)) WINDOW_12M
    ∧ momentumOf (List.replicate 100 (100 : ℚ)) =
      MOMENTUM_3M_WEIGHT * period_return (List.replicate 100 (100 : ℚ)) WINDOW_3M :=
  ⟨(momentum_c7 (List.replicate 50 (100 : ℚ))).2.2.2.1 (by decide),
   (momentum_c7 (List.replicate 100 (100 : ℚ))).2.2.2.2 (by decide) (by decide)⟩

/-! ## Claim C8: annualized return and monotonicity -/

/-- Claim C8: for snapshots computed from positive price series,
`annualized_return` is `(1 + mean_daily_return) ^ 252 - 1`, and a larger
`mean_daily_return` gives a larger `annualized_return` (each mean of
daily returns of a positive price series exceeds -1, where the
compounding map is strictly increasing). -/
theorem annualized_return_c8 (c1 c2 : List ℚ) (w : ℕ) (μ1 μ2 : ℚ) (hw : 0 < w)
    (hp1 : ∀ p ∈ c1, 0 < p) (_hp2 : ∀ p ∈ c2, 0 < p)
    (h1 : meanDailyOf c1 w = some μ1)
    (h2 : meanDailyOf c2 w = some μ2)
    (hlt : μ1 < μ2) :
    annualizedOf c1 w = some (annualize μ1)
    ∧ annualizedOf c2 w = some (annualize μ2)
    ∧ annualize μ1 < annualize μ2 := by
  refine ⟨by rw [annualizedOf, h1, Option.map_some'], by rw [annualizedOf, h2, Option.map_some'], ?_⟩
  have k1 : -1 < μ1 :=
    meanDaily_gt_neg_one c1 w μ1 hw hp1 h1
  have hbase : (0 : ℚ) < 1 + μ1 := by linarith
  have hpow : (1 + μ1) ^ TRADING_DAYS_PER_YEAR < (1 + μ2) ^ TRADING_DAYS_PER_YEAR :=
    pow_lt_pow_left (by linarith) (le_of_lt hbase) (by norm_num [TRADING_DAYS_PER_YEAR])
  unfold annualize
  linarith

/-- Witness for C8: two two-day series with one-day windows, with mean
daily returns 1/100 and 1/50. -/
theorem annualized_return_c8_witness :
    annualizedOf [100, 101] 1 = some (annualize (1 / 100))
    ∧ annualizedOf [100, 102] 1 = some (annualize (1 / 50))
    ∧ annualize (1 / 100) < annualize (1 / 50) :=
  annualized_return_c8 [100, 101] [100, 102] 1 (1 / 100) (1 / 50)
    (by norm_num) (by norm_num) (by norm_num)
    (by norm_num [meanDailyOf, rollingMeanLast, windowFilled, windowVals, lastWindow,
      dailyReturns, pctChange, pctChangeFrom, List.filterMap])
    (by norm_num [meanDailyOf, rollingMeanLast, windowFilled, windowVals, lastWindow,
      dailyReturns, pctChange, pctChangeFrom, List.filterMap])
    (by norm_num)

/-! ## Short-window NaN lemmas -/

theorem windowFilled_none_cons (t : List (Option ℚ)) (w : ℕ)
    (hlen : t.length + 1 ≤ w) : windowFilled (none :: t) w = false := by
  unfold windowFilled
  by_cases h : w ≤ t.length + 1
  · have hw : w = t.length + 1 := le_antisymm h hlen
    have hdrop : lastWindow (none :: t) w = none :: t := by
      unfold lastWindow
      simp [hw]
    rw [hdrop]
    simp
  · have h' : ¬ w ≤ (none :: t).length := by
      rw [List.length_cons]
      exact h
    rw [decide_eq_false h', Bool.false_and]

theorem meanDailyOf_none (close : List ℚ) (w : ℕ) (hne : close ≠ [])
    (hlen : close.length ≤ w) : meanDailyOf close w = none := by
  obtain ⟨c, rest, rfl⟩ := List.exists_cons_of_ne_nil hne
  unfold meanDailyOf rollingMeanLast
  rw [dailyReturns_cons, windowFilled_none_cons]
  · rfl
  · rw [List.length_map, length_specReturns]
    rw [List.length_cons] at hlen
    simp
    omega

theorem rollingVar_dailyReturns_none (close : List ℚ) (w : ℕ) (hne : close ≠ [])
    (hlen : close.length ≤ w) : rollingVarLast (dailyReturns close) w = none := by
  obtain ⟨c, rest, rfl⟩ := List.exists_cons_of_ne_nil hne
  unfold rollingVarLast
  rw [dailyReturns_cons, windowFilled_none_cons]
  · rfl
  · rw [List.length_map, length_specReturns]
    rw [List.length_cons] at hlen
    simp
    omega

theorem rollingVar_negativeReturns_none (close : List ℚ) (w : ℕ) (hne : close ≠ [])
    (hlen : close.length ≤ w) : rollingVarLast (negativeReturns close) w = none := by
  obtain ⟨c, rest, rfl⟩ := List.exists_cons_of_ne_nil hne
  unfold rollingVarLast negativeReturns
  rw [dailyReturns_cons, List.map_cons, Option.map_none', windowFilled_none_cons]
  · rfl
  · rw [List.length_map, List.length_map, length_specReturns]
    rw [List.length_cons] at hlen
    simp
    omega

theorem maxDrawdownOf_isSome (close : List ℚ) (w : ℕ) (hw : 0 < w)
    (hne : close ≠ []) : (maxDrawdownOf close w).isSome = true := by
  have htne : lastWindow close w ≠ [] := by
    apply List.ne_nil_of_length_pos
    rw [length_lastWindow]
    have : 0 < close.length := List.length_pos.mpr hne
    omega
  obtain ⟨c, rest, hct⟩ := List.exists_cons_of_ne_nil htne
  unfold maxDrawdownOf
  rw [hct]
  unfold drawdownList cummax
  rw [List.zipWith_cons_cons]
  rfl

/-! ## Claim C4: insufficient history is skipped -/

/-- A key-distinct association list determines values uniquely. -/
theorem group_val_unique (groups : List (String × List PricePoint)) (t : String)
    (g g' : List PricePoint) (hnodup : (groups.map Prod.fst).Nodup)
    (h : (t, g) ∈ groups) (h' : (t, g') ∈ groups) : g = g' := by
  induction groups with
  | nil => cases h
  | cons a rest ih =>
      rw [List.map_cons, List.nodup_cons] at hnodup
      rcases List.mem_cons.mp h with h1 | h1
      · rcases List.mem_cons.mp h' with h2 | h2
        · exact congrArg Prod.snd (h1.trans h2.symm)
        · exfalso
          apply hnodup.1
          have : t ∈ rest.map Prod.fst := List.mem_map_of_mem Prod.fst h2
          rw [← h1]
          exact this
      · rcases List.mem_cons.mp h' with h2 | h2
        · exfalso
          apply hnodup.1
          have : t ∈ rest.map Prod.fst := List.mem_map_of_mem Prod.fst h1
          rw [← h2]
          exact this
        · exact ih hnodup.2 h1 h2

/-- Claim C4: a ticker whose price series has fewer observations than
the minimum trading-day threshold produces no snapshot, and (given
distinct ticker keys) no row for it appears in the output of
`compute_all_metrics`. -/
theorem insufficient_history_c4 (groups : List (String × List PricePoint))
    (wm : ℤ) (t : String) (g : List PricePoint)
    (hnodup : (groups.map Prod.fst).Nodup)
    (hmem : (t, g) ∈ groups)
    (hshort : g.length < MIN_TRADING_DAYS) :
    compute_ticker_metrics g (windowFor wm) = none
    ∧ (compute_all_metrics groups wm).countP (fun r => r.ticker == t) = 0 := by
  have hnone : ∀ w', compute_ticker_metrics g w' = none := by
    intro w'
    unfold compute_ticker_metrics
    rw [if_pos hshort]
  refine ⟨hnone _, ?_⟩
  rw [List.countP_eq_zero]
  intro row hrow
  unfold compute_all_metrics at hrow
  by_cases he : allPoints groups = []
  · rw [if_pos he] at hrow
    cases hrow
  · rw [if_neg he] at hrow
    rw [List.mem_filterMap] at hrow
    obtain ⟨a, ha, hfa⟩ := hrow
    rw [Option.map_eq_some'] at hfa
    obtain ⟨m, hm, hrw⟩ := hfa
    subst hrw
    intro hbeq
    have ha1 : a.1 = t := by simpa using hbeq
    have hmem' : (t, a.2) ∈ groups := by
      rw [← ha1]
      exact ha
    have hg : a.2 = g := group_val_unique groups t a.2 g hnodup hmem' hmem
    rw [hg, hnone] at hm
    cases hm

/-- Ticker groups used by the C4 witness: a 5-day ticker and a 253-day
ticker. -/
def exGroupsC4 : List (String × List PricePoint) :=
  [("A", constSeries 5), ("B", constSeries 253)]

/-- Witness for C4: ticker A with 5 observations yields no snapshot and
no output row. -/
theorem insufficient_history_c4_witness :
    compute_ticker_metrics (constSeries 5) (windowFor 12) = none
    ∧ (compute_all_metrics exGroupsC4 12).countP (fun r => r.ticker == "A") = 0 :=
  insufficient_history_c4 exGroupsC4 12 "A" (constSeries 5)
    (by decide) (by decide) (by decide)

/-! ## Claim C9: eligible tickers shorter than the window -/

/-- Claim C9: a positive, date-sorted price series with at least 200 but
fewer than 253 observations still produces a snapshot, whose
`mean_daily_return`, `annualized_return`, `volatility` and
`downside_deviation` are all NaN (the 252-slot rolling window cannot be
filled), while `max_drawdown` is a number and `momentum` is the ordinary
blend of the close series. -/
theorem nan_window_c9 (prices : List PricePoint)
    (hsorted : prices.Pairwise (fun a b => a.date ≤ b.date))
    (_hpos : ∀ p ∈ prices, 0 < p.adj_close)
    (hlo : MIN_TRADING_DAYS ≤ prices.length)
    (hhi : prices.length < WINDOW_12M + 1) :
    ∃ m, compute_ticker_metrics prices WINDOW_12M = some m ∧
      m.mean_daily_return = none ∧ m.annualized_return = none ∧
      m.volatility = none ∧ m.downside_deviation = none ∧
      m.max_drawdown.isSome = true ∧
      m.momentum = momentumOf (prices.map PricePoint.adj_close) := by
  have hne : prices ≠ [] := by
    intro h
    rw [h] at hlo
    simp [MIN_TRADING_DAYS] at hlo
  have hcne : prices.map PricePoint.adj_close ≠ [] := by
    simpa using hne
  have hclen : (prices.map PricePoint.adj_close).length ≤ WINDOW_12M := by
    rw [List.length_map]
    omega
  unfold compute_ticker_metrics
  rw [if_neg (not_lt.mpr hlo)]
  rw [sortByDate_of_sorted prices hsorted]
  have hmean := meanDailyOf_none (prices.map PricePoint.adj_close) WINDOW_12M hcne hclen
  refine ⟨_, rfl, hmean, ?_, ?_, ?_, ?_, rfl⟩
  · rw [annualizedOf, hmean, Option.map_none']
  · rw [volatilityOf,
      rollingVar_dailyReturns_none (prices.map PricePoint.adj_close) WINDOW_12M hcne hclen,
      Option.map_none']
  · rw [downsideDeviationOf,
      rollingVar_negativeReturns_none (prices.map PricePoint.adj_close) WINDOW_12M hcne hclen,
      Option.map_none']
  · exact maxDrawdownOf_isSome (prices.map PricePoint.adj_close) WINDOW_12M
      (by norm_num [WINDOW_12M]) hcne

/-- Witness for C9: a 200-day constant-price ticker produces a snapshot
whose rolling-window statistics are NaN while its drawdown is defined. -/
theorem nan_window_c9_witness :
    (compute_ticker_metrics (constSeries 200) WINDOW_12M).isSome = true
    ∧ (compute_ticker_metrics (constSeries 200) WINDOW_12M).map Metrics.mean_daily_return
        = some none
    ∧ (compute_ticker_metrics (constSeries 200) WINDOW_12M).map Metrics.annualized_return
        = some none
    ∧ (compute_ticker_metrics (constSeries 200) WINDOW_12M).map Metrics.volatility
        = some none
    ∧ (compute_ticker_metrics (constSeries 200) WINDOW_12M).map Metrics.downside_deviation
        = some none := by
  obtain ⟨m, hm, h1, h2, h3, h4, _, _⟩ := nan_window_c9 (constSeries 200)
    (by decide) (by decide) (by decide) (by decide)
  rw [hm]
  exact ⟨rfl, by rw [Option.map_some', h1], by rw [Option.map_some', h2],
    by rw [Option.map_some', h3], by rw [Option.map_some', h4]⟩

/-! ## Claim C2: the shared as-of date -/

theorem mem_allPoints (groups : List (String × List PricePoint))
    (a : String × List PricePoint) (p : PricePoint)
    (ha : a ∈ groups) (hp : p ∈ a.2) : p ∈ allPoints groups := by
  induction groups with
  | nil => cases ha
  | cons b rest ih =>
      have hstep : allPoints (b :: rest) = b.2 ++ allPoints rest := rfl
      rw [hstep]
      rcases List.mem_cons.mp ha with h1 | h1
      · exact List.mem_append_left _ (h1 ▸ hp)
      · exact List.mem_append_right _ (ih h1)

/-- A ticker with at least the minimum history contributes at least one
output row, carrying its ticker symbol and the shared as-of date. -/
theorem count_included_row (groups : List (String × List PricePoint)) (wm : ℤ)
    (t : String) (g : List PricePoint)
    (hmem : (t, g) ∈ groups) (hlong : MIN_TRADING_DAYS ≤ g.length) :
    1 ≤ (compute_all_metrics groups wm).countP
        (fun r => r.ticker == t && r.as_of_date == asOfDate groups) := by
  have hgne : g ≠ [] := by
    apply List.ne_nil_of_length_pos
    have : MIN_TRADING_DAYS = 200 := rfl
    omega
  obtain ⟨p0, grest, hg0⟩ := List.exists_cons_of_ne_nil hgne
  have hap : allPoints groups ≠ [] := by
    apply List.ne_nil_of_mem
    exact mem_allPoints groups (t, g) p0 hmem (by rw [hg0]; exact List.mem_cons_self _ _)
  have hnotshort : ¬ g.length < MIN_TRADING_DAYS := not_lt.mpr hlong
  obtain ⟨m, hm⟩ : ∃ m, compute_ticker_metrics g (windowFor wm) = some m := by
    unfold compute_ticker_metrics
    rw [if_neg hnotshort]
    exact ⟨_, rfl⟩
  have hmemrow : (⟨t, asOfDate groups, wm, m⟩ : MetricsRow) ∈
      compute_all_metrics groups wm := by
    unfold compute_all_metrics
    rw [if_neg hap, List.mem_filterMap]
    exact ⟨(t, g), hmem, by rw [hm]; rfl⟩
  exact List.countP_pos.mpr ⟨_, hmemrow, by simp⟩

/-- Claim C2 (amended): every row `compute_all_metrics` produces is
stamped with the maximum date of the full price dataset, and a ticker
with at least the minimum history is *included* (stamped with that
global date) even when its own history ends earlier — only tickers
below the minimum-history threshold are excluded. -/
theorem as_of_date_c2 (groups : List (String × List PricePoint)) (wm : ℤ)
    (t : String) (g : List PricePoint)
    (hmem : (t, g) ∈ groups) (hlong : MIN_TRADING_DAYS ≤ g.length) :
    (compute_all_metrics groups wm).countP
        (fun r => !(r.as_of_date == asOfDate groups)) = 0
    ∧ 1 ≤ (compute_all_metrics groups wm).countP
        (fun r => r.ticker == t && r.as_of_date == asOfDate groups) := by
  refine ⟨?_, count_included_row groups wm t g hmem hlong⟩
  rw [List.countP_eq_zero]
  intro row hrow
  unfold compute_all_metrics at hrow
  by_cases he : allPoints groups = []
  · rw [if_pos he] at hrow
    cases hrow
  · rw [if_neg he, List.mem_filterMap] at hrow
    obtain ⟨a, _, hfa⟩ := hrow
    rw [Option.map_eq_some'] at hfa
    obtain ⟨m, _, hrw⟩ := hfa
    subst hrw
    simp

/-- Ticker groups used by C2's counterexample and witness: ticker A has
200 points on dates 0–199 (its history ends early), ticker B has 253
points on dates 0–252. -/
def exGroupsC2 : List (String × List PricePoint) :=
  [("A", constSeries 200), ("B", constSeries 253)]

theorem foldr_max_append (l1 l2 : List ℕ) :
    (l1 ++ l2).foldr max 0 = max (l1.foldr max 0) (l2.foldr max 0) := by
  induction l1 with
  | nil => simp
  | cons a tl ih => simp [ih, Nat.max_assoc]

theorem asOfDate_exGroupsC2 : asOfDate exGroupsC2 = 252 := by
  have h1 : allPoints exGroupsC2 = constSeries 200 ++ (constSeries 253 ++ []) := rfl
  unfold asOfDate
  rw [h1, List.append_nil, List.map_append, foldr_max_append]
  rw [show ((constSeries 200).map PricePoint.date).foldr max 0 = 199 from by decide,
    show ((constSeries 253).map PricePoint.date).foldr max 0 = 252 from by decide]
  rfl

/-- Claim C2 counterexample: ticker A's own price history ends at date
199, before the dataset maximum 252, yet A is NOT excluded from the
snapshot set: an output row carries ticker A stamped with `as_of_date`
252 — the ticker is re-dated to the global maximum rather than
excluded. -/
theorem as_of_date_c2_counterexample :
    asOfDate exGroupsC2 = 252
    ∧ ((constSeries 200).map PricePoint.date).foldr max 0 = 199
    ∧ 1 ≤ (compute_all_metrics exGroupsC2 12).countP
        (fun r => r.ticker == "A" && r.as_of_date == 252) := by
  refine ⟨asOfDate_exGroupsC2, by decide, ?_⟩
  have h := count_included_row exGroupsC2 12 "A" (constSeries 200) (by decide) (by decide)
  rwa [asOfDate_exGroupsC2] at h

/-- Witness for C2 (amended): on the same groups, every row is stamped
with the shared as-of date, and a row for the early-ending ticker A is
present with that date. -/
theorem as_of_date_c2_witness :
    (compute_all_metrics exGroupsC2 12).countP
        (fun r => !(r.as_of_date == asOfDate exGroupsC2)) = 0
    ∧ 1 ≤ (compute_all_metrics exGroupsC2 12).countP
        (fun r => r.ticker == "A" && r.as_of_date == asOfDate exGroupsC2) :=
  as_of_date_c2 exGroupsC2 12 "A" (constSeries 200) (by decide) (by decide)

/-! ## Claim C10: unknown window_months falls back to 252 days -/

/-- Claim C10: for any `window_months` outside {3, 6, 12},
`compute_all_metrics` silently uses the 252-trading-day window — its
output rows equal those of a 12-month run — while every row is tagged
with the caller-supplied `window_months` value. -/
theorem window_months_c10 (groups : List (String × List PricePoint)) (wm : ℤ)
    (h3 : wm ≠ 3) (h6 : wm ≠ 6) (h12 : wm ≠ 12) :
    windowFor wm = WINDOW_12M
    ∧ compute_all_metrics groups wm =
        (compute_all_metrics groups 12).map
          (fun r => ⟨r.ticker, r.as_of_date, wm, r.metrics⟩) := by
  have hwf : windowFor wm = WINDOW_12M := by
    unfold windowFor
    rw [if_neg h12, if_neg h6, if_neg h3]
  have hwf12 : windowFor 12 = WINDOW_12M := by
    unfold windowFor
    rw [if_pos rfl]
  refine ⟨hwf, ?_⟩
  unfold compute_all_metrics
  by_cases he : allPoints groups = []
  · rw [if_pos he, if_pos he]
    rfl
  · rw [if_neg he, if_neg he]
    rw [List.map_filterMap]
    apply List.filterMap_congr
    intro a _
    rw [hwf, hwf12, Option.map_map]
    rfl

/-- Witness for C10: `window_months = 7` on the C2 example groups uses
the 252-day window and tags rows with 7. -/
theorem window_months_c10_witness :
    windowFor 7 = WINDOW_12M
    ∧ compute_all_metrics exGroupsC2 7 =
        (compute_all_metrics exGroupsC2 12).map
          (fun r => ⟨r.ticker, r.as_of_date, 7, r.metrics⟩) :=
  window_months_c10 exGroupsC2 7 (by decide) (by decide) (by decide)

/-! ## Counting lemmas for the scorer -/

theorem countP_split (l : List ℚ) (p q r : ℚ → Bool)
    (hpq : ∀ y ∈ l, p y = (q y || r y))
    (hqr : ∀ y ∈ l, ¬(q y = true ∧ r y = true)) :
    l.countP p = l.countP q + l.countP r := by
  induction l with
  | nil => rfl
  | cons a tl ih =>
      rw [List.countP_cons, List.countP_cons, List.countP_cons]
      have hp := hpq a (List.mem_cons_self _ _)
      have hq := hqr a (List.mem_cons_self _ _)
      have ihx := ih (fun y hy => hpq y (List.mem_cons_of_mem _ hy))
        (fun y hy => hqr y (List.mem_cons_of_mem _ hy))
      rw [ihx]
      cases hQ : q a <;> cases hR : r a <;>
        simp [hp, hQ, hR] at * <;> omega

theorem countP_trichotomy (l : List ℚ) (x : ℚ) :
    l.countP (fun y => decide (y < x)) + l.countP (fun y => decide (y = x))
      + l.countP (fun y => decide (x < y)) = l.length := by
  induction l with
  | nil => rfl
  | cons a tl ih =>
      rw [List.countP_cons, List.countP_cons, List.countP_cons, List.length_cons]
      rcases lt_trichotomy a x with h | h | h
      · rw [if_pos (by simpa using h), if_neg (by simp [h.ne]), if_neg (by simp [lt_asymm h])]
        omega
      · rw [if_neg (by simp [h, lt_irrefl]), if_pos (by simp [h]),
          if_neg (by simp [h, lt_irrefl])]
        omega
      · rw [if_neg (by simp [lt_asymm h]), if_neg (by simp [h.ne']), if_pos (by simpa using h)]
        omega

theorem one_le_countP_eq (l : List ℚ) (x : ℚ) (hx : x ∈ l) :
    1 ≤ l.countP (fun y => decide (y = x)) :=
  List.countP_pos.mpr ⟨x, hx, by simp⟩

theorem countP_le_of_lt_eq (l : List ℚ) (x : ℚ) :
    l.countP (fun y => decide (y < x)) + l.countP (fun y => decide (y = x)) ≤ l.length := by
  have h := countP_trichotomy l x
  omega

theorem sum_Icc_consecutive (a : ℕ) : ∀ b : ℕ,
    (∑ i in Finset.Icc (a + 1) (a + b), (i : ℚ)) = b * a + b * (b + 1) / 2 := by
  intro b
  induction b with
  | zero =>
      rw [Finset.Icc_eq_empty (by omega)]
      simp
  | succ k ih =>
      rw [show a + (k + 1) = (a + k) + 1 from rfl]
      rw [Finset.sum_Icc_succ_top (by omega : a + 1 ≤ a + k + 1), ih]
      push_cast
      ring

/-! ## Claim C1: percentile normalization -/

/-- The full characterization of the pandas average-percentile rank of a
member value: (0,1] bounds, 1.0 for a unique maximum, 1/n for a unique
minimum, and the averaged-position tie rule. -/
theorem pctRank_key (scores : List ℚ) (x : ℚ) (hx : x ∈ scores) :
    (0 < pctRank scores x ∧ pctRank scores x ≤ 1)
    ∧ (scores.countP (fun y => decide (x < y)) = 0 →
        scores.countP (fun y => decide (y = x)) = 1 → pctRank scores x = 1)
    ∧ (scores.countP (fun y => decide (y < x)) = 0 →
        scores.countP (fun y => decide (y = x)) = 1 →
        pctRank scores x = 1 / (scores.length : ℚ))
    ∧ pctRank scores x * (scores.length : ℚ) *
          (scores.countP (fun y => decide (y = x)) : ℚ)
        = ∑ i in Finset.Icc (scores.countP (fun y => decide (y < x)) + 1)
            (scores.countP (fun y => decide (y < x))
              + scores.countP (fun y => decide (y = x))), (i : ℚ) := by
  set cl := scores.countP (fun y => decide (y < x)) with hcl
  set ce := scores.countP (fun y => decide (y = x)) with hce
  set cg := scores.countP (fun y => decide (x < y)) with hcg
  have htri : cl + ce + cg = scores.length := countP_trichotomy scores x
  have hce1 : 1 ≤ ce := one_le_countP_eq scores x hx
  have hlen1 : 1 ≤ scores.length := List.length_pos.mpr (List.ne_nil_of_mem hx)
  have hnq : (0 : ℚ) < (scores.length : ℚ) := by exact_mod_cast hlen1
  have hcen : cl + ce ≤ scores.length := countP_le_of_lt_eq scores x
  have hval : pctRank scores x =
      ((cl : ℚ) + ((ce : ℚ) + 1) / 2) / (scores.length : ℚ) := rfl
  have hceq : (1 : ℚ) ≤ (ce : ℚ) := by exact_mod_cast hce1
  have hclq : (0 : ℚ) ≤ (cl : ℚ) := Nat.cast_nonneg cl
  refine ⟨⟨?_, ?_⟩, ?_, ?_, ?_⟩
  · rw [hval]
    apply div_pos _ hnq
    linarith
  · rw [hval, div_le_one hnq]
    have hsum : (cl : ℚ) + (ce : ℚ) ≤ (scores.length : ℚ) := by exact_mod_cast hcen
    linarith
  · intro hg0 he1
    have hcl1 : cl + 1 = scores.length := by omega
    have hclq1 : (cl : ℚ) + 1 = (scores.length : ℚ) := by exact_mod_cast hcl1
    rw [hval, he1]
    push_cast
    rw [div_eq_one_iff_eq (ne_of_gt hnq)]
    linarith
  · intro hl0 he1
    rw [hval, hl0, he1]
    push_cast
    ring
  · rw [hval, sum_Icc_consecutive cl ce]
    have hne : (scores.length : ℚ) ≠ 0 := ne_of_gt hnq
    field_simp
    ring

/-- Claim C1 (amended): for every cross-section and configured risk
profile, each row's `normalized_score` lies in (0, 1] — hence in [0,1];
a row whose raw score is the unique maximum receives exactly 1.0; a row
whose raw score is the unique minimum receives `1/n`, not 0; and each
row's normalized score times `n` times its tie-group size equals the
sum of the ascending positions its tie group occupies, i.e. ties get
the average percentile of the tied group (two tied at positions 3 and 4
of 10 both get 0.35). -/
theorem normalized_score_c1 (metrics : List ScoreInput)
    (pw : String × ProfileWeights) (_hpw : pw ∈ RISK_PROFILES) (row : ScoreRow)
    (hrow : row ∈ scoreProfile metrics pw.1 pw.2) :
    (0 < row.normalized_score ∧ row.normalized_score ≤ 1)
    ∧ ((metrics.map (rawScore pw.2)).countP (fun y => decide (row.raw_score < y)) = 0 →
        (metrics.map (rawScore pw.2)).countP (fun y => decide (y = row.raw_score)) = 1 →
        row.normalized_score = 1)
    ∧ ((metrics.map (rawScore pw.2)).countP (fun y => decide (y < row.raw_score)) = 0 →
        (metrics.map (rawScore pw.2)).countP (fun y => decide (y = row.raw_score)) = 1 →
        row.normalized_score = 1 / (metrics.length : ℚ))
    ∧ row.normalized_score * (metrics.length : ℚ) *
          ((metrics.map (rawScore pw.2)).countP (fun y => decide (y = row.raw_score)) : ℚ)
        = ∑ i in Finset.Icc
            ((metrics.map (rawScore pw.2)).countP (fun y => decide (y < row.raw_score)) + 1)
            ((metrics.map (rawScore pw.2)).countP (fun y => decide (y < row.raw_score))
              + (metrics.map (rawScore pw.2)).countP (fun y => decide (y = row.raw_score))),
            (i : ℚ) := by
  unfold scoreProfile at hrow
  obtain ⟨r, hr, hrs⟩ := List.mem_map.mp hrow
  subst hrs
  have hx : rawScore pw.2 r ∈ metrics.map (rawScore pw.2) := List.mem_map_of_mem _ hr
  have hcast : ((metrics.length : ℕ) : ℚ) = (((metrics.map (rawScore pw.2)).length : ℕ) : ℚ) := by
    rw [List.length_map]
  rw [hcast]
  exact pctRank_key (metrics.map (rawScore pw.2)) (rawScore pw.2 r) hx

/-- Claim C1 counterexample: in a two-ticker cross-section under the
"medium" profile, ticker B has strictly the worst raw score yet its
normalized score is 1/2, not 0 (pandas percentile rank of the worst
element is 1/n, never 0). -/
theorem normalized_score_c1_counterexample :
    (scoreProfile [pureReturnInput "A" 1, pureReturnInput "B" 0] "medium"
        ⟨1, 1, 3 / 4, 7 / 10⟩).map ScoreRow.normalized_score = [1, 1 / 2]
    ∧ rawScore ⟨1, 1, 3 / 4, 7 / 10⟩ (pureReturnInput "B" 0)
        < rawScore ⟨1, 1, 3 / 4, 7 / 10⟩ (pureReturnInput "A" 1)
    ∧ ((1 : ℚ) / 2 ≠ 0) := by
  refine ⟨?_, ?_, by norm_num⟩
  · norm_num [scoreProfile, scoreRow, pctRank, rankAvg, rawScore, pureReturnInput]
  · norm_num [rawScore, pureReturnInput]

/-- A ten-ticker cross-section whose raw scores are 1,2,3,3,5,…,10 under
any profile: the two rows with raw score 3 are tied at ascending
positions 3 and 4. -/
def ex10 : List ScoreInput :=
  [pureReturnInput "T1" 1, pureReturnInput "T2" 2, pureReturnInput "T3" 3,
   pureReturnInput "T4" 3, pureReturnInput "T5" 5, pureReturnInput "T6" 6,
   pureReturnInput "T7" 7, pureReturnInput "T8" 8, pureReturnInput "T9" 9,
   pureReturnInput "T10" 10]

/-- The "low" profile weights from the configuration. -/
def lowWeights : ProfileWeights := ⟨2, 2, 3 / 2, 3 / 10⟩

/-- Witness for C1: in the ten-ticker example, the row tied at positions
3 and 4 has a normalized score in (0,1] and equal to 0.35. -/
theorem normalized_score_c1_witness :
    0 < (scoreRow (ex10.map (rawScore lowWeights)) "low" lowWeights
        (pureReturnInput "T3" 3)).normalized_score
    ∧ (scoreRow (ex10.map (rawScore lowWeights)) "low" lowWeights
        (pureReturnInput "T3" 3)).normalized_score ≤ 1
    ∧ (scoreRow (ex10.map (rawScore lowWeights)) "low" lowWeights
        (pureReturnInput "T3" 3)).normalized_score = 35 / 100 := by
  have h := normalized_score_c1 ex10 ("low", lowWeights)
    (by simp [RISK_PROFILES, lowWeights])
    (scoreRow (ex10.map (rawScore lowWeights)) "low" lowWeights
      (pureReturnInput "T3" 3))
    (List.mem_map_of_mem _ (by simp [ex10]))
  refine ⟨h.1.1, h.1.2, ?_⟩
  norm_num [scoreRow, pctRank, rankAvg, rawScore, pureReturnInput, ex10]

/-! ## Claim C5: competition rank -/

/-- When no score lies strictly between `x2 < x1`, the competition rank
of `x2` skips past the whole tie group of `x1`. -/
theorem compRank_skip (scores : List ℚ) (x1 x2 : ℚ) (hlt : x2 < x1)
    (hno : ∀ y ∈ scores, ¬(x2 < y ∧ y < x1)) :
    compRank scores x2 = compRank scores x1
      + scores.countP (fun y => decide (y = x1)) := by
  unfold compRank
  have hsplit : scores.countP (fun y => decide (x2 < y)) =
      scores.countP (fun y => decide (y = x1))
        + scores.countP (fun y => decide (x1 < y)) := by
    apply countP_split
    · intro y hy
      have hiff : x2 < y ↔ (y = x1 ∨ x1 < y) := by
        constructor
        · intro hgt
          have hnb := hno y hy
          have hnl : ¬ y < x1 := fun hl => hnb ⟨hgt, hl⟩
          rcases lt_or_eq_of_le (le_of_not_lt hnl) with h | h
          · exact Or.inr h
          · exact Or.inl h.symm
        · intro h
          rcases h with h | h
          · rw [h]
            exact hlt
          · exact lt_trans hlt h
      rw [decide_eq_decide.mpr hiff, Bool.decide_or]
    · intro y _ hand
      have he : y = x1 := of_decide_eq_true hand.1
      have hl : x1 < y := of_decide_eq_true hand.2
      rw [he] at hl
      exact lt_irrefl x1 hl
  rw [hsplit]
  omega

/-- Claim C5: rank is the competition (minimum-method) integer rank in
descending raw-score order: it is one more than the number of strictly
better raw scores; tied raw scores share one rank; when no score lies
strictly between two rows' scores, the lower row's rank equals the
higher row's rank plus the size of the higher tie group (the sequence
skips by the tie-group size); and raw scores [10, 8, 8, 5] rank as
[1, 2, 2, 4]. -/
theorem rank_c5 (metrics : List ScoreInput) (pw : String × ProfileWeights)
    (_hpw : pw ∈ RISK_PROFILES) (r1 r2 : ScoreRow)
    (h1 : r1 ∈ scoreProfile metrics pw.1 pw.2)
    (h2 : r2 ∈ scoreProfile metrics pw.1 pw.2) :
    (r1.rank = (metrics.map (rawScore pw.2)).countP
        (fun y => decide (r1.raw_score < y)) + 1)
    ∧ (r1.raw_score = r2.raw_score → r1.rank = r2.rank)
    ∧ (r2.raw_score < r1.raw_score →
        (∀ y ∈ metrics.map (rawScore pw.2), ¬(r2.raw_score < y ∧ y < r1.raw_score)) →
        r2.rank = r1.rank + (metrics.map (rawScore pw.2)).countP
          (fun y => decide (y = r1.raw_score)))
    ∧ (scoreProfile [pureReturnInput "A" 10, pureReturnInput "B" 8, pureReturnInput "C" 8,
        pureReturnInput "D" 5] pw.1 pw.2).map ScoreRow.rank = [1, 2, 2, 4] := by
  unfold scoreProfile at h1 h2
  obtain ⟨a, _, has⟩ := List.mem_map.mp h1
  obtain ⟨b, _, hbs⟩ := List.mem_map.mp h2
  subst has
  subst hbs
  refine ⟨rfl, ?_, ?_, ?_⟩
  · intro heq
    show compRank (metrics.map (rawScore pw.2)) (rawScore pw.2 a)
      = compRank (metrics.map (rawScore pw.2)) (rawScore pw.2 b)
    have heq' : rawScore pw.2 a = rawScore pw.2 b := heq
    rw [heq']
  · intro hlt hno
    exact compRank_skip (metrics.map (rawScore pw.2))
      (rawScore pw.2 a) (rawScore pw.2 b) hlt hno
  · norm_num [scoreProfile, scoreRow, compRank, rawScore, pureReturnInput]

/-- The four-ticker cross-section with raw scores 10, 8, 8, 5. -/
def ex4 : List ScoreInput :=
  [pureReturnInput "A" 10, pureReturnInput "B" 8, pureReturnInput "C" 8,
   pureReturnInput "D" 5]

/-- Witness for C5: in the [10, 8, 8, 5] cross-section under the "low"
profile, D's rank equals B's rank plus the tie-group size 2, the two
tied rows B and C share a rank, and the ranks come out [1, 2, 2, 4]. -/
theorem rank_c5_witness :
    (scoreRow (ex4.map (rawScore lowWeights)) "low" lowWeights
        (pureReturnInput "D" 5)).rank
      = (scoreRow (ex4.map (rawScore lowWeights)) "low" lowWeights
          (pureReturnInput "B" 8)).rank + 2
    ∧ (scoreRow (ex4.map (rawScore lowWeights)) "low" lowWeights
          (pureReturnInput "B" 8)).rank
      = (scoreRow (ex4.map (rawScore lowWeights)) "low" lowWeights
          (pureReturnInput "C" 8)).rank
    ∧ (scoreProfile ex4 "low" lowWeights).map ScoreRow.rank = [1, 2, 2, 4] := by
  have h := rank_c5 ex4 ("low", lowWeights) (by simp [RISK_PROFILES, lowWeights])
    (scoreRow (ex4.map (rawScore lowWeights)) "low" lowWeights (pureReturnInput "B" 8))
    (scoreRow (ex4.map (rawScore lowWeights)) "low" lowWeights (pureReturnInput "D" 5))
    (List.mem_map_of_mem _ (by simp [ex4]))
    (List.mem_map_of_mem _ (by simp [ex4]))
  have h' := rank_c5 ex4 ("low", lowWeights) (by simp [RISK_PROFILES, lowWeights])
    (scoreRow (ex4.map (rawScore lowWeights)) "low" lowWeights (pureReturnInput "B" 8))
    (scoreRow (ex4.map (rawScore lowWeights)) "low" lowWeights (pureReturnInput "C" 8))
    (List.mem_map_of_mem _ (by simp [ex4]))
    (List.mem_map_of_mem _ (by simp [ex4]))
  refine ⟨?_, ?_, h.2.2.2⟩
  · have h3 := h.2.2.1
      (by norm_num [scoreRow, rawScore, pureReturnInput])
      (by
        intro y hy
        simp [ex4, rawScore, pureReturnInput] at hy
        rcases hy with rfl | rfl | rfl | rfl <;>
          norm_num [scoreRow, rawScore, pureReturnInput])
    have hcnt : (ex4.map (rawScore lowWeights)).countP
        (fun y => decide (y = (scoreRow (ex4.map (rawScore lowWeights)) "low" lowWeights
          (pureReturnInput "B" 8)).raw_score)) = 2 := by
      norm_num [ex4, rawScore, pureReturnInput, scoreRow]
    rw [h3, hcnt]
  · exact h'.2.1 (by norm_num [scoreRow, rawScore, pureReturnInput])
